import Mathlib

/-!
Verification of the lexer and recursive-descent parser of a small JSON-like
language (Rust sources: src/lexer.rs, src/parser.rs).

The lexer walks a character list; the parser walks a token list.  Rust's
iterator loops are embedded as fuel-indexed structural recursions; a
sufficiency proof shows the chosen fuel always suffices, and the clean
(fuel-free) functions are obtained with Option.get.  Rust i32 arithmetic is
embedded as Int with an explicit two's-complement wrap at 32 bits
(wrap-on-overflow, the semantics of a release build).
-/

/-- One lexical unit, mirroring the Rust enum Token in src/lexer.rs. -/
inductive Token where
  | Number : Int → Token
  | Plus : Token
  | Minus : Token
  | Multiply : Token
  | Divide : Token
  | LBraces : Token
  | RBraces : Token
  | LBracket : Token
  | RBracket : Token
  | LParenthesis : Token
  | RParenthesis : Token
  | Colon : Token
  | Comma : Token
  | String : String → Token
  | Boolean : Bool → Token
  | Null : Token
  | Unknown : Char → Token
deriving DecidableEq, Repr

/-- Two's-complement wrap into the i32 range, used where Rust i32 arithmetic
could overflow (release-build wrap-on-overflow semantics). -/
def wrap32 (x : Int) : Int :=
  (x + 2147483648) % 4294967296 - 2147483648

/-- Rust char::is_whitespace: the Unicode White_Space code points. -/
def rustIsWhitespace (c : Char) : Bool :=
  decide (c.toNat = 9 ∨ c.toNat = 10 ∨ c.toNat = 11 ∨ c.toNat = 12 ∨
    c.toNat = 13 ∨ c.toNat = 32 ∨ c.toNat = 133 ∨ c.toNat = 160 ∨
    c.toNat = 5760 ∨ c.toNat = 8192 ∨ c.toNat = 8193 ∨ c.toNat = 8194 ∨
    c.toNat = 8195 ∨ c.toNat = 8196 ∨ c.toNat = 8197 ∨ c.toNat = 8198 ∨
    c.toNat = 8199 ∨ c.toNat = 8200 ∨ c.toNat = 8201 ∨ c.toNat = 8202 ∨
    c.toNat = 8232 ∨ c.toNat = 8233 ∨ c.toNat = 8239 ∨ c.toNat = 8287 ∨
    c.toNat = 12288)

/-- Rust char::to_digit(10).is_some, the characters 0 through 9. -/
def isDigitChar (c : Char) : Bool :=
  48 ≤ c.toNat && c.toNat ≤ 57

/-- Rust char::is_ascii_alphabetic. -/
def isAsciiAlphabetic (c : Char) : Bool :=
  (65 ≤ c.toNat && c.toNat ≤ 90) || (97 ≤ c.toNat && c.toNat ≤ 122)

/-- Numeric value of a digit character, as Rust to_digit(10) cast to i32. -/
def digitVal (c : Char) : Int :=
  (c.toNat : Int) - 48

/-- Lexer::read_number: greedily consume further digit characters,
accumulating the base-10 value in i32 arithmetic.  Returns the token value
and the unconsumed remainder of the input. -/
def readNumber : Int → List Char → Int × List Char
  | n, [] => (n, [])
  | n, c :: cs =>
    if isDigitChar c then readNumber (wrap32 (n * 10 + digitVal c)) cs
    else (n, c :: cs)

/-- Lexer::read_string (called with the opening quote already consumed):
consume characters into the buffer until a closing quote; if the input ends
first, the result is the Unknown quote sentinel with everything consumed. -/
def readString : List Char → List Char → Token × List Char
  | _, [] => (.Unknown '"', [])
  | acc, c :: cs =>
    if c = '"' then (.String (String.mk acc), cs)
    else readString (acc ++ [c]) cs

/-- Lexer::read_keyword: greedily consume ASCII-alphabetic characters after
the first, then classify the whole word. -/
def readKeyword (first : Char) (cs : List Char) : Token × List Char :=
  let buf := String.mk (first :: cs.takeWhile isAsciiAlphabetic)
  (if buf = "true" then .Boolean true
   else if buf = "false" then .Boolean false
   else if buf = "null" then .Null
   else .Unknown first,
   cs.dropWhile isAsciiAlphabetic)

/-- The dispatch on a non-whitespace character in Lexer::next_token
(the match arms of the Rust function). -/
def dispatchToken (c : Char) (cs : List Char) : Token × List Char :=
  if c = '+' then (.Plus, cs)
  else if c = '-' then (.Minus, cs)
  else if c = '*' then (.Multiply, cs)
  else if c = '/' then (.Divide, cs)
  else if c = '\x7b' then (.LBraces, cs)
  else if c = '\x7d' then (.RBraces, cs)
  else if c = '[' then (.LBracket, cs)
  else if c = ']' then (.RBracket, cs)
  else if c = '(' then (.LParenthesis, cs)
  else if c = ')' then (.RParenthesis, cs)
  else if c = ':' then (.Colon, cs)
  else if c = ',' then (.Comma, cs)
  else if isDigitChar c then
    let r := readNumber (digitVal c) cs
    (.Number r.1, r.2)
  else if c = '"' then readString [] cs
  else if c = 't' ∨ c = 'f' ∨ c = 'n' then readKeyword c cs
  else (.Unknown c, cs)

/-- Lexer::next_token: skip whitespace, then dispatch on the next character.
None means end of input. -/
def nextToken : List Char → Option (Token × List Char)
  | [] => none
  | c :: cs =>
    if rustIsWhitespace c then nextToken cs
    else some (dispatchToken c cs)

/-- Lexer::tokenize, indexed by fuel bounding the number of loop iterations;
none signals fuel exhaustion (it never happens for sufficient fuel). -/
def tokenizeF : Nat → List Char → Option (List Token)
  | 0, _ => none
  | f + 1, cs =>
    match nextToken cs with
    | none => some []
    | some (t, rest) => (tokenizeF f rest).map (t :: ·)

theorem readNumber_length_le : ∀ cs n, (readNumber n cs).2.length ≤ cs.length := by
  intro cs
  induction cs with
  | nil => intro n; simp [readNumber]
  | cons c cs ih =>
    intro n
    simp only [readNumber]
    split
    · exact le_trans (ih _) (by simp)
    · simp

theorem readString_length_le : ∀ cs acc, (readString acc cs).2.length ≤ cs.length := by
  intro cs
  induction cs with
  | nil => intro acc; simp [readString]
  | cons c cs ih =>
    intro acc
    simp only [readString]
    split
    · simp
    · exact le_trans (ih _) (by simp)

theorem dropWhile_length_le (p : Char → Bool) :
    ∀ cs : List Char, (cs.dropWhile p).length ≤ cs.length := by
  intro cs
  induction cs with
  | nil => simp
  | cons c cs ih =>
    simp only [List.dropWhile]
    split
    · exact le_trans ih (by simp)
    · simp

/-- ASCII characters other than space and the control range are not
whitespace; this covers every case the proofs need. -/
theorem rustIsWhitespace_false (c : Char) (h1 : 33 ≤ c.toNat) (h2 : c.toNat ≤ 125) :
    rustIsWhitespace c = false := by
  simp only [rustIsWhitespace, decide_eq_false_iff_not]
  omega

theorem isDigitChar_bounds {c : Char} (h : isDigitChar c = true) :
    48 ≤ c.toNat ∧ c.toNat ≤ 57 := by
  simp only [isDigitChar, Bool.and_eq_true, decide_eq_true_eq] at h
  exact h

theorem isAsciiAlphabetic_bounds {c : Char} (h : isAsciiAlphabetic c = true) :
    (65 ≤ c.toNat ∧ c.toNat ≤ 90) ∨ (97 ≤ c.toNat ∧ c.toNat ≤ 122) := by
  simp only [isAsciiAlphabetic, Bool.or_eq_true, Bool.and_eq_true,
    decide_eq_true_eq] at h
  exact h

/-- Every character falls into exactly one arm of the Rust match in
next_token: a fixed single-character token, a digit, a double quote, one of
the keyword starters, or the catch-all. -/
theorem dispatchToken_shape (c : Char) :
    (∃ t : Token, isDigitChar c = false ∧ c ≠ '"' ∧
        ¬(c = 't' ∨ c = 'f' ∨ c = 'n') ∧ ∀ cs, dispatchToken c cs = (t, cs)) ∨
    (isDigitChar c = true ∧ ∀ cs, dispatchToken c cs =
        (.Number (readNumber (digitVal c) cs).1, (readNumber (digitVal c) cs).2)) ∨
    (c = '"' ∧ ∀ cs, dispatchToken c cs = readString [] cs) ∨
    ((c = 't' ∨ c = 'f' ∨ c = 'n') ∧ ∀ cs, dispatchToken c cs = readKeyword c cs) := by
  by_cases h1 : c = '+'
  · subst h1; exact Or.inl ⟨.Plus, by decide, by decide, by decide, fun cs => rfl⟩
  by_cases h2 : c = '-'
  · subst h2; exact Or.inl ⟨.Minus, by decide, by decide, by decide, fun cs => rfl⟩
  by_cases h3 : c = '*'
  · subst h3; exact Or.inl ⟨.Multiply, by decide, by decide, by decide, fun cs => rfl⟩
  by_cases h4 : c = '/'
  · subst h4; exact Or.inl ⟨.Divide, by decide, by decide, by decide, fun cs => rfl⟩
  by_cases h5 : c = '\x7b'
  · subst h5; exact Or.inl ⟨.LBraces, by decide, by decide, by decide, fun cs => rfl⟩
  by_cases h6 : c = '\x7d'
  · subst h6; exact Or.inl ⟨.RBraces, by decide, by decide, by decide, fun cs => rfl⟩
  by_cases h7 : c = '['
  · subst h7; exact Or.inl ⟨.LBracket, by decide, by decide, by decide, fun cs => rfl⟩
  by_cases h8 : c = ']'
  · subst h8; exact Or.inl ⟨.RBracket, by decide, by decide, by decide, fun cs => rfl⟩
  by_cases h9 : c = '('
  · subst h9
    exact Or.inl ⟨.LParenthesis, by decide, by decide, by decide, fun cs => rfl⟩
  by_cases h10 : c = ')'
  · subst h10
    exact Or.inl ⟨.RParenthesis, by decide, by decide, by decide, fun cs => rfl⟩
  by_cases h11 : c = ':'
  · subst h11; exact Or.inl ⟨.Colon, by decide, by decide, by decide, fun cs => rfl⟩
  by_cases h12 : c = ','
  · subst h12; exact Or.inl ⟨.Comma, by decide, by decide, by decide, fun cs => rfl⟩
  by_cases hd : isDigitChar c
  · refine Or.inr (Or.inl ⟨hd, fun cs => ?_⟩)
    unfold dispatchToken
    rw [if_neg h1, if_neg h2, if_neg h3, if_neg h4, if_neg h5, if_neg h6,
      if_neg h7, if_neg h8, if_neg h9, if_neg h10, if_neg h11, if_neg h12,
      if_pos hd]
  by_cases hq : c = '"'
  · subst hq; exact Or.inr (Or.inr (Or.inl ⟨rfl, fun cs => rfl⟩))
  by_cases hk : c = 't' ∨ c = 'f' ∨ c = 'n'
  · refine Or.inr (Or.inr (Or.inr ⟨hk, fun cs => ?_⟩))
    rcases hk with hk | hk | hk <;> (subst hk; rfl)
  · refine Or.inl ⟨.Unknown c, by simpa using hd, hq, hk, fun cs => ?_⟩
    unfold dispatchToken
    rw [if_neg h1, if_neg h2, if_neg h3, if_neg h4, if_neg h5, if_neg h6,
      if_neg h7, if_neg h8, if_neg h9, if_neg h10, if_neg h11, if_neg h12,
      if_neg hd, if_neg hq, if_neg hk]

theorem dispatchToken_length_le (c : Char) (cs : List Char) :
    (dispatchToken c cs).2.length ≤ cs.length := by
  rcases dispatchToken_shape c with ⟨t, _, _, _, he⟩ | ⟨_, he⟩ | ⟨_, he⟩ | ⟨_, he⟩
  · rw [he cs]
  · rw [he cs]; exact readNumber_length_le _ _
  · rw [he cs]; exact readString_length_le _ _
  · rw [he cs]
    simp only [readKeyword]
    exact dropWhile_length_le _ _

theorem nextToken_length_lt :
    ∀ cs t rest, nextToken cs = some (t, rest) → rest.length < cs.length := by
  intro cs
  induction cs with
  | nil => intro t rest h; simp [nextToken] at h
  | cons c cs ih =>
    intro t rest h
    simp only [nextToken] at h
    split at h
    · exact Nat.lt_succ_of_lt (ih _ _ h)
    · simp only [Option.some.injEq] at h
      have := dispatchToken_length_le c cs
      have h2 : rest.length = (dispatchToken c cs).2.length := by rw [h]
      simp only [List.length_cons]
      omega

theorem tokenizeF_isSome :
    ∀ f cs, cs.length < f → (tokenizeF f cs).isSome := by
  intro f
  induction f with
  | zero => intro cs h; omega
  | succ f ih =>
    intro cs h
    simp only [tokenizeF]
    match hnt : nextToken cs with
    | none => simp
    | some (t, rest) =>
      have hlt := nextToken_length_lt cs t rest hnt
      have hsome := ih rest (by omega)
      obtain ⟨ts, hts⟩ := Option.isSome_iff_exists.mp hsome
      simp [hts]

/-- Lexer::tokenize: repeatedly take the next token until end of input. -/
def tokenize (cs : List Char) : List Token :=
  (tokenizeF (cs.length + 1) cs).get (tokenizeF_isSome (cs.length + 1) cs (by omega))

theorem tokenizeF_mono :
    ∀ f f' cs r, f ≤ f' → tokenizeF f cs = some r → tokenizeF f' cs = some r := by
  intro f
  induction f with
  | zero => intro f' cs r _ h; simp [tokenizeF] at h
  | succ f ih =>
    intro f' cs r hle h
    match f', hle with
    | f' + 1, hle =>
      simp only [tokenizeF] at h ⊢
      match hnt : nextToken cs with
      | none => simpa [hnt] using h
      | some (t, rest) =>
        simp only [hnt] at h ⊢
        match hr : tokenizeF f rest with
        | none => simp [hr] at h
        | some ts =>
          rw [ih f' rest ts (by omega) hr]
          simpa [hr] using h

theorem tokenize_eq_some (cs : List Char) :
    tokenizeF (cs.length + 1) cs = some (tokenize cs) := by
  simp [tokenize]

/-- The one unfolding equation used everywhere: tokenize steps by nextToken. -/
theorem tokenize_eq (cs : List Char) :
    tokenize cs = match nextToken cs with
      | none => []
      | some (t, rest) => t :: tokenize rest := by
  have h := tokenize_eq_some cs
  simp only [tokenizeF] at h
  match hnt : nextToken cs with
  | none =>
    simp only [hnt] at h ⊢
    simpa using h.symm
  | some (t, rest) =>
    simp only [hnt] at h ⊢
    have hr := tokenize_eq_some rest
    have hlt := nextToken_length_lt cs t rest hnt
    have hr' := tokenizeF_mono (rest.length + 1) cs.length rest (tokenize rest) (by omega) hr
    rw [hr'] at h
    simp only [Option.map_some', Option.some.injEq] at h
    exact h.symm

/-- One node of the parsed tree, mirroring the Rust enum named Type in
src/parser.rs (that name is a reserved sort former in Lean, so the spec's
name Value is used; the constructors keep the Rust variant names). -/
inductive Value where
  | Object : List (String × Value) → Value
  | Array : List Value → Value
  | String : String → Value
  | Number : Int → Value
  | Boolean : Bool → Value
  | Null : Value

/-- Debug rendering of a token, as Rust derive(Debug) formats it inside the
unexpected-token parse error. -/
def tokenDebug : Token → String
  | .Number n => "Number(" ++ toString n ++ ")"
  | .Plus => "Plus"
  | .Minus => "Minus"
  | .Multiply => "Multiply"
  | .Divide => "Divide"
  | .LBraces => "LBraces"
  | .RBraces => "RBraces"
  | .LBracket => "LBracket"
  | .RBracket => "RBracket"
  | .LParenthesis => "LParenthesis"
  | .RParenthesis => "RParenthesis"
  | .Colon => "Colon"
  | .Comma => "Comma"
  | .String s => "String(\"" ++ s ++ "\")"
  | .Boolean b => "Boolean(" ++ (if b then "true" else "false") ++ ")"
  | .Null => "Null"
  | .Unknown c => "Unknown(\x27" ++ String.mk [c] ++ "\x27)"

mutual

/-- Parser::parse_val, indexed by fuel bounding the recursion depth; none
signals fuel exhaustion (never reached for sufficient fuel).  On success the
unconsumed suffix of the token list is returned beside the value. -/
def parseValF : Nat → List Token → Option (Except String (Value × List Token))
  | 0, _ => none
  | f + 1, ts =>
    match ts with
    | [] => some (.error "Unexpected end of input")
    | .Number n :: rest => some (.ok (.Number n, rest))
    | .String s :: rest => some (.ok (.String s, rest))
    | .Boolean b :: rest => some (.ok (.Boolean b, rest))
    | .Null :: rest => some (.ok (.Null, rest))
    | .LBraces :: rest => parseObjectF f rest
    | .LBracket :: rest => parseArrayF f rest
    | t :: _ => some (.error ("Unexpected token: " ++ tokenDebug t))

/-- Parser::parse_object (entered with the opening brace consumed): empty
object on an immediate closing brace, otherwise the key-value loop. -/
def parseObjectF : Nat → List Token → Option (Except String (Value × List Token))
  | 0, _ => none
  | f + 1, ts =>
    match ts with
    | .RBraces :: rest => some (.ok (.Object [], rest))
    | _ => parseObjectLoopF f [] ts

/-- The loop inside Parser::parse_object: read a string key, a colon and a
value, then continue on a comma or stop on a closing brace. -/
def parseObjectLoopF :
    Nat → List (String × Value) → List Token →
      Option (Except String (Value × List Token))
  | 0, _, _ => none
  | f + 1, acc, ts =>
    match ts with
    | .String k :: .Colon :: rest =>
      match parseValF f rest with
      | none => none
      | some (.error e) => some (.error e)
      | some (.ok (v, rest2)) =>
        match rest2 with
        | .Comma :: rest3 => parseObjectLoopF f (acc ++ [(k, v)]) rest3
        | .RBraces :: rest3 => some (.ok (.Object (acc ++ [(k, v)]), rest3))
        | _ => some (.error "Expected \x27,\x27 or \x27\x7d\x27 after pair")
    | .String _ :: _ => some (.error "Expected \x27:\x27 after key")
    | _ => some (.error "Expected string key in object")

/-- Parser::parse_array (entered with the opening bracket consumed). -/
def parseArrayF : Nat → List Token → Option (Except String (Value × List Token))
  | 0, _ => none
  | f + 1, ts =>
    match ts with
    | .RBracket :: rest => some (.ok (.Array [], rest))
    | _ => parseArrayLoopF f [] ts

/-- The loop inside Parser::parse_array: parse a value, then continue on a
comma or stop on a closing bracket. -/
def parseArrayLoopF :
    Nat → List Value → List Token → Option (Except String (Value × List Token))
  | 0, _, _ => none
  | f + 1, acc, ts =>
    match parseValF f ts with
    | none => none
    | some (.error e) => some (.error e)
    | some (.ok (v, rest2)) =>
      match rest2 with
      | .Comma :: rest3 => parseArrayLoopF f (acc ++ [v]) rest3
      | .RBracket :: rest3 => some (.ok (.Array (acc ++ [v]), rest3))
      | _ => some (.error "Expected \x27,\x27 or \x27]\x27 after an array value")

end

/-- The tokens the grammar never accepts in any position (arithmetic
operators, parentheses, and the unknown-character sentinel). -/
def isArith : Token → Bool
  | .Plus | .Minus | .Multiply | .Divide
  | .LParenthesis | .RParenthesis | .Unknown _ => true
  | _ => false

theorem parseValF_succ (f : Nat) (ts : List Token) :
    parseValF (f + 1) ts = match ts with
      | [] => some (.error "Unexpected end of input")
      | .Number n :: rest => some (.ok (.Number n, rest))
      | .String s :: rest => some (.ok (.String s, rest))
      | .Boolean b :: rest => some (.ok (.Boolean b, rest))
      | .Null :: rest => some (.ok (.Null, rest))
      | .LBraces :: rest => parseObjectF f rest
      | .LBracket :: rest => parseArrayF f rest
      | t :: _ => some (.error ("Unexpected token: " ++ tokenDebug t)) := rfl

theorem parseObjectF_succ (f : Nat) (ts : List Token) :
    parseObjectF (f + 1) ts = match ts with
      | .RBraces :: rest => some (.ok (.Object [], rest))
      | _ => parseObjectLoopF f [] ts := rfl

theorem parseObjectLoopF_succ (f : Nat) (acc : List (String × Value)) (ts : List Token) :
    parseObjectLoopF (f + 1) acc ts = match ts with
      | .String k :: .Colon :: rest =>
        (match parseValF f rest with
          | none => none
          | some (.error e) => some (.error e)
          | some (.ok (v, rest2)) =>
            match rest2 with
            | .Comma :: rest3 => parseObjectLoopF f (acc ++ [(k, v)]) rest3
            | .RBraces :: rest3 => some (.ok (.Object (acc ++ [(k, v)]), rest3))
            | _ => some (.error "Expected \x27,\x27 or \x27\x7d\x27 after pair"))
      | .String _ :: _ => some (.error "Expected \x27:\x27 after key")
      | _ => some (.error "Expected string key in object") := rfl

theorem parseArrayF_succ (f : Nat) (ts : List Token) :
    parseArrayF (f + 1) ts = match ts with
      | .RBracket :: rest => some (.ok (.Array [], rest))
      | _ => parseArrayLoopF f [] ts := rfl

theorem parseArrayLoopF_succ (f : Nat) (acc : List Value) (ts : List Token) :
    parseArrayLoopF (f + 1) acc ts = match parseValF f ts with
      | none => none
      | some (.error e) => some (.error e)
      | some (.ok (v, rest2)) =>
        match rest2 with
        | .Comma :: rest3 => parseArrayLoopF f (acc ++ [v]) rest3
        | .RBracket :: rest3 => some (.ok (.Array (acc ++ [v]), rest3))
        | _ => some (.error "Expected \x27,\x27 or \x27]\x27 after an array value") := rfl

/-- Combined induction over the fueled parser: a successful parse splits its
input into the consumed prefix and the returned suffix, the consumed prefix
is nonempty, and it never contains an arithmetic, parenthesis or unknown
token. -/
theorem parseF_spec : ∀ f : Nat,
    (∀ ts v rest, parseValF f ts = some (.ok (v, rest)) →
      ∃ used, ts = used ++ rest ∧ used ≠ [] ∧ ∀ t ∈ used, isArith t = false) ∧
    (∀ ts v rest, parseObjectF f ts = some (.ok (v, rest)) →
      ∃ used, ts = used ++ rest ∧ used ≠ [] ∧ ∀ t ∈ used, isArith t = false) ∧
    (∀ acc ts v rest, parseObjectLoopF f acc ts = some (.ok (v, rest)) →
      ∃ used, ts = used ++ rest ∧ used ≠ [] ∧ ∀ t ∈ used, isArith t = false) ∧
    (∀ ts v rest, parseArrayF f ts = some (.ok (v, rest)) →
      ∃ used, ts = used ++ rest ∧ used ≠ [] ∧ ∀ t ∈ used, isArith t = false) ∧
    (∀ acc ts v rest, parseArrayLoopF f acc ts = some (.ok (v, rest)) →
      ∃ used, ts = used ++ rest ∧ used ≠ [] ∧ ∀ t ∈ used, isArith t = false) := by
  intro f
  induction f with
  | zero =>
    refine ⟨?_, ?_, ?_, ?_, ?_⟩
    · intro ts v rest h; exact absurd h (by rw [show parseValF 0 ts = none from rfl]; simp)
    · intro ts v rest h; exact absurd h (by rw [show parseObjectF 0 ts = none from rfl]; simp)
    · intro acc ts v rest h
      exact absurd h (by rw [show parseObjectLoopF 0 acc ts = none from rfl]; simp)
    · intro ts v rest h; exact absurd h (by rw [show parseArrayF 0 ts = none from rfl]; simp)
    · intro acc ts v rest h
      exact absurd h (by rw [show parseArrayLoopF 0 acc ts = none from rfl]; simp)
  | succ f ih =>
    obtain ⟨ihV, ihOF, ihOL, ihAF, ihAL⟩ := ih
    refine ⟨?_, ?_, ?_, ?_, ?_⟩
    · -- parseValF
      intro ts v rest h
      rw [parseValF_succ] at h
      split at h
      · exact absurd h (by simp)
      · simp only [Option.some.injEq, Except.ok.injEq, Prod.mk.injEq] at h
        obtain ⟨hv, hr⟩ := h
        subst hr
        exact ⟨[.Number _], rfl, by simp, by intro t ht; simp at ht; subst ht; rfl⟩
      · simp only [Option.some.injEq, Except.ok.injEq, Prod.mk.injEq] at h
        obtain ⟨hv, hr⟩ := h
        subst hr
        exact ⟨[.String _], rfl, by simp, by intro t ht; simp at ht; subst ht; rfl⟩
      · simp only [Option.some.injEq, Except.ok.injEq, Prod.mk.injEq] at h
        obtain ⟨hv, hr⟩ := h
        subst hr
        exact ⟨[.Boolean _], rfl, by simp, by intro t ht; simp at ht; subst ht; rfl⟩
      · simp only [Option.some.injEq, Except.ok.injEq, Prod.mk.injEq] at h
        obtain ⟨hv, hr⟩ := h
        subst hr
        exact ⟨[.Null], rfl, by simp, by intro t ht; simp at ht; subst ht; rfl⟩
      · obtain ⟨u, hu, hne, hgood⟩ := ihOF _ v rest h
        refine ⟨.LBraces :: u, by rw [hu]; rfl, by simp, ?_⟩
        intro t ht
        rcases List.mem_cons.mp ht with rfl | ht
        · rfl
        · exact hgood t ht
      · obtain ⟨u, hu, hne, hgood⟩ := ihAF _ v rest h
        refine ⟨.LBracket :: u, by rw [hu]; rfl, by simp, ?_⟩
        intro t ht
        rcases List.mem_cons.mp ht with rfl | ht
        · rfl
        · exact hgood t ht
      · exact absurd h (by simp)
    · -- parseObjectF
      intro ts v rest h
      rw [parseObjectF_succ] at h
      split at h
      · simp only [Option.some.injEq, Except.ok.injEq, Prod.mk.injEq] at h
        obtain ⟨hv, hr⟩ := h
        subst hr
        exact ⟨[.RBraces], rfl, by simp, by intro t ht; simp at ht; subst ht; rfl⟩
      · exact ihOL [] ts v rest h
    · -- parseObjectLoopF
      intro acc ts v rest h
      rw [parseObjectLoopF_succ] at h
      split at h
      · rename_i k r
        split at h
        · exact absurd h (by simp)
        · exact absurd h (by simp)
        · rename_i v1 rest2 heq
          obtain ⟨u1, hu1, hne1, hgood1⟩ := ihV r v1 rest2 heq
          split at h
          · rename_i rest3
            obtain ⟨u2, hu2, hne2, hgood2⟩ := ihOL _ rest3 v rest h
            refine ⟨.String k :: .Colon :: (u1 ++ .Comma :: u2), ?_, by simp, ?_⟩
            · rw [hu1, hu2]
              simp
            · intro t ht
              simp only [List.mem_cons, List.mem_append] at ht
              rcases ht with rfl | rfl | ht | rfl | ht
              · rfl
              · rfl
              · exact hgood1 t ht
              · rfl
              · exact hgood2 t ht
          · rename_i rest3
            simp only [Option.some.injEq, Except.ok.injEq, Prod.mk.injEq] at h
            obtain ⟨hv, hr⟩ := h
            subst hr
            refine ⟨.String k :: .Colon :: (u1 ++ [.RBraces]), ?_, by simp, ?_⟩
            · rw [hu1]
              simp
            · intro t ht
              simp only [List.mem_cons, List.mem_append, List.not_mem_nil,
                or_false] at ht
              rcases ht with rfl | rfl | ht | rfl
              · rfl
              · rfl
              · exact hgood1 t ht
              · rfl
          · exact absurd h (by simp)
      · exact absurd h (by simp)
      · exact absurd h (by simp)
    · -- parseArrayF
      intro ts v rest h
      rw [parseArrayF_succ] at h
      split at h
      · simp only [Option.some.injEq, Except.ok.injEq, Prod.mk.injEq] at h
        obtain ⟨hv, hr⟩ := h
        subst hr
        exact ⟨[.RBracket], rfl, by simp, by intro t ht; simp at ht; subst ht; rfl⟩
      · exact ihAL [] ts v rest h
    · -- parseArrayLoopF
      intro acc ts v rest h
      rw [parseArrayLoopF_succ] at h
      split at h
      · exact absurd h (by simp)
      · exact absurd h (by simp)
      · rename_i v1 rest2 heq
        obtain ⟨u1, hu1, hne1, hgood1⟩ := ihV ts v1 rest2 heq
        split at h
        · rename_i rest3
          obtain ⟨u2, hu2, hne2, hgood2⟩ := ihAL _ rest3 v rest h
          refine ⟨u1 ++ .Comma :: u2, ?_, by simp [hne1], ?_⟩
          · rw [hu1, hu2]
            simp
          · intro t ht
            simp only [List.mem_append, List.mem_cons] at ht
            rcases ht with ht | rfl | ht
            · exact hgood1 t ht
            · rfl
            · exact hgood2 t ht
        · rename_i rest3
          simp only [Option.some.injEq, Except.ok.injEq, Prod.mk.injEq] at h
          obtain ⟨hv, hr⟩ := h
          subst hr
          refine ⟨u1 ++ [.RBracket], ?_, by simp [hne1], ?_⟩
          · rw [hu1]
            simp
          · intro t ht
            simp only [List.mem_append, List.mem_cons, List.not_mem_nil,
              or_false] at ht
            rcases ht with ht | rfl
            · exact hgood1 t ht
            · rfl
        · exact absurd h (by simp)

/-- A successful parse consumes at least one token. -/
theorem parseValF_consume (f : Nat) (ts : List Token) (v : Value) (rest : List Token)
    (h : parseValF f ts = some (.ok (v, rest))) : rest.length < ts.length := by
  obtain ⟨used, hu, hne, _⟩ := (parseF_spec f).1 ts v rest h
  have : ts.length = used.length + rest.length := by rw [hu]; simp
  have : used.length ≠ 0 := by simpa using fun hl => hne (List.eq_nil_of_length_eq_zero hl)
  omega
/-- Fuel sufficiency: three times the number of remaining tokens (plus a
small constant) always suffices for the fueled parser to finish. -/
theorem parseF_isSome : ∀ f : Nat,
    (∀ ts, 3 * ts.length + 1 ≤ f → (parseValF f ts).isSome) ∧
    (∀ ts, 3 * ts.length + 3 ≤ f → (parseObjectF f ts).isSome) ∧
    (∀ acc ts, 3 * ts.length + 2 ≤ f → (parseObjectLoopF f acc ts).isSome) ∧
    (∀ ts, 3 * ts.length + 3 ≤ f → (parseArrayF f ts).isSome) ∧
    (∀ acc ts, 3 * ts.length + 2 ≤ f → (parseArrayLoopF f acc ts).isSome) := by
  intro f
  induction f with
  | zero =>
    refine ⟨?_, ?_, ?_, ?_, ?_⟩ <;> (intros; omega)
  | succ f ih =>
    obtain ⟨ihV, ihOF, ihOL, ihAF, ihAL⟩ := ih
    refine ⟨?_, ?_, ?_, ?_, ?_⟩
    · intro ts hle
      rw [parseValF_succ]
      split
      · simp
      · simp
      · simp
      · simp
      · simp
      · rename_i rest
        exact ihOF rest (by simp at hle ⊢; omega)
      · rename_i rest
        exact ihAF rest (by simp at hle ⊢; omega)
      · simp
    · intro ts hle
      rw [parseObjectF_succ]
      split
      · simp
      · exact ihOL [] ts (by omega)
    · intro acc ts hle
      rw [parseObjectLoopF_succ]
      split
      · rename_i k r
        simp only [List.length_cons] at hle
        split
        · rename_i heq
          have := ihV r (by omega)
          rw [heq] at this
          simp at this
        · simp
        · rename_i v1 rest2 heq
          have hc := parseValF_consume f r v1 rest2 heq
          split
          · exact ihOL _ _ (by simp only [List.length_cons] at hc; omega)
          · simp
          · simp
      · simp
      · simp
    · intro ts hle
      rw [parseArrayF_succ]
      split
      · simp
      · exact ihAL [] ts (by omega)
    · intro acc ts hle
      rw [parseArrayLoopF_succ]
      split
      · rename_i heq
        have := ihV ts (by omega)
        rw [heq] at this
        simp at this
      · simp
      · rename_i v1 rest2 heq
        have hc := parseValF_consume f ts v1 rest2 heq
        split
        · exact ihAL _ _ (by simp only [List.length_cons] at hc; omega)
        · simp
        · simp

/-- One-step fuel monotonicity: a settled result is stable under more fuel. -/
theorem parseF_monoStep : ∀ f : Nat,
    (∀ ts r, parseValF f ts = some r → parseValF (f + 1) ts = some r) ∧
    (∀ ts r, parseObjectF f ts = some r → parseObjectF (f + 1) ts = some r) ∧
    (∀ acc ts r, parseObjectLoopF f acc ts = some r →
      parseObjectLoopF (f + 1) acc ts = some r) ∧
    (∀ ts r, parseArrayF f ts = some r → parseArrayF (f + 1) ts = some r) ∧
    (∀ acc ts r, parseArrayLoopF f acc ts = some r →
      parseArrayLoopF (f + 1) acc ts = some r) := by
  intro f
  induction f with
  | zero =>
    refine ⟨?_, ?_, ?_, ?_, ?_⟩
    · intro ts r h; exact absurd h (by rw [show parseValF 0 ts = none from rfl]; simp)
    · intro ts r h; exact absurd h (by rw [show parseObjectF 0 ts = none from rfl]; simp)
    · intro acc ts r h
      exact absurd h (by rw [show parseObjectLoopF 0 acc ts = none from rfl]; simp)
    · intro ts r h; exact absurd h (by rw [show parseArrayF 0 ts = none from rfl]; simp)
    · intro acc ts r h
      exact absurd h (by rw [show parseArrayLoopF 0 acc ts = none from rfl]; simp)
  | succ f ih =>
    obtain ⟨ihV, ihOF, ihOL, ihAF, ihAL⟩ := ih
    refine ⟨?_, ?_, ?_, ?_, ?_⟩
    · intro ts r h
      rcases ts with _ | ⟨t, rest⟩
      · exact h
      · cases t
        case LBraces => exact ihOF rest r h
        case LBracket => exact ihAF rest r h
        all_goals exact h
    · intro ts r h
      rcases ts with _ | ⟨t, rest⟩
      · exact ihOL [] [] r h
      · cases t
        case RBraces => exact h
        all_goals exact ihOL [] _ r h
    · intro acc ts r h
      rcases ts with _ | ⟨t, ts1⟩
      · exact h
      · cases t
        case String k =>
          rcases ts1 with _ | ⟨t2, ts2⟩
          · exact h
          · cases t2
            case Colon =>
              simp only [parseObjectLoopF_succ] at h ⊢
              cases hval : parseValF f ts2 with
              | none => rw [hval] at h; simp at h
              | some x =>
                have hval2 := ihV ts2 x hval
                rw [hval] at h
                rw [hval2]
                match x with
                | .error e => exact h
                | .ok (v1, rest2) =>
                  rcases rest2 with _ | ⟨t3, rest3⟩
                  · exact h
                  · cases t3
                    case Comma => exact ihOL _ rest3 r h
                    all_goals exact h
            all_goals exact h
        all_goals exact h
    · intro ts r h
      rcases ts with _ | ⟨t, rest⟩
      · exact ihAL [] [] r h
      · cases t
        case RBracket => exact h
        all_goals exact ihAL [] _ r h
    · intro acc ts r h
      simp only [parseArrayLoopF_succ] at h ⊢
      cases hval : parseValF f ts with
      | none => rw [hval] at h; simp at h
      | some x =>
        have hval2 := ihV ts x hval
        rw [hval] at h
        rw [hval2]
        match x with
        | .error e => exact h
        | .ok (v1, rest2) =>
          rcases rest2 with _ | ⟨t3, rest3⟩
          · exact h
          · cases t3
            case Comma => exact ihAL _ rest3 r h
            all_goals exact h

theorem get_eq_of_eq_some {α : Type} (o : Option α) (h : o.isSome) (x : α)
    (he : o = some x) : o.get h = x := by
  subst he; rfl

theorem parseValF_mono {f f' : Nat} (hle : f ≤ f') {ts : List Token}
    {r : Except String (Value × List Token)} (h : parseValF f ts = some r) :
    parseValF f' ts = some r := by
  induction f', hle using Nat.le_induction with
  | base => exact h
  | succ f' _ ih => exact (parseF_monoStep f').1 ts r ih

theorem parseObjectF_mono {f f' : Nat} (hle : f ≤ f') {ts : List Token}
    {r : Except String (Value × List Token)} (h : parseObjectF f ts = some r) :
    parseObjectF f' ts = some r := by
  induction f', hle using Nat.le_induction with
  | base => exact h
  | succ f' _ ih => exact (parseF_monoStep f').2.1 ts r ih

theorem parseObjectLoopF_mono {f f' : Nat} (hle : f ≤ f')
    {acc : List (String × Value)} {ts : List Token}
    {r : Except String (Value × List Token)} (h : parseObjectLoopF f acc ts = some r) :
    parseObjectLoopF f' acc ts = some r := by
  induction f', hle using Nat.le_induction with
  | base => exact h
  | succ f' _ ih => exact (parseF_monoStep f').2.2.1 acc ts r ih

theorem parseArrayF_mono {f f' : Nat} (hle : f ≤ f') {ts : List Token}
    {r : Except String (Value × List Token)} (h : parseArrayF f ts = some r) :
    parseArrayF f' ts = some r := by
  induction f', hle using Nat.le_induction with
  | base => exact h
  | succ f' _ ih => exact (parseF_monoStep f').2.2.2.1 ts r ih

theorem parseArrayLoopF_mono {f f' : Nat} (hle : f ≤ f') {acc : List Value}
    {ts : List Token} {r : Except String (Value × List Token)}
    (h : parseArrayLoopF f acc ts = some r) : parseArrayLoopF f' acc ts = some r := by
  induction f', hle using Nat.le_induction with
  | base => exact h
  | succ f' _ ih => exact (parseF_monoStep f').2.2.2.2 acc ts r ih

/-- Parser::parse_val as a total function (fuel instantiated and discharged). -/
def parseVal (ts : List Token) : Except String (Value × List Token) :=
  (parseValF (3 * ts.length + 1) ts).get ((parseF_isSome _).1 ts (le_refl _))

/-- Parser::parse_object as a total function. -/
def parseObject (ts : List Token) : Except String (Value × List Token) :=
  (parseObjectF (3 * ts.length + 3) ts).get ((parseF_isSome _).2.1 ts (le_refl _))

/-- The parse_object loop as a total function. -/
def parseObjectLoop (acc : List (String × Value)) (ts : List Token) :
    Except String (Value × List Token) :=
  (parseObjectLoopF (3 * ts.length + 2) acc ts).get
    ((parseF_isSome _).2.2.1 acc ts (le_refl _))

/-- Parser::parse_array as a total function. -/
def parseArray (ts : List Token) : Except String (Value × List Token) :=
  (parseArrayF (3 * ts.length + 3) ts).get ((parseF_isSome _).2.2.2.1 ts (le_refl _))

/-- The parse_array loop as a total function. -/
def parseArrayLoop (acc : List Value) (ts : List Token) :
    Except String (Value × List Token) :=
  (parseArrayLoopF (3 * ts.length + 2) acc ts).get
    ((parseF_isSome _).2.2.2.2 acc ts (le_refl _))

/-- Parser::parse: one value, then reject any unconsumed tokens. -/
def parse (ts : List Token) : Except String Value :=
  match parseVal ts with
  | .error e => .error e
  | .ok (v, rest) =>
    match rest with
    | [] => .ok v
    | _ :: _ => .error "Extra tokens after valid JSON value"

/-- Any sufficient fuel computes the clean parse_val. -/
theorem parseValF_eq (ts : List Token) (f : Nat) (hf : 3 * ts.length + 1 ≤ f) :
    parseValF f ts = some (parseVal ts) := by
  obtain ⟨x, hx⟩ := Option.isSome_iff_exists.mp ((parseF_isSome _).1 ts (le_refl _))
  rw [show parseVal ts = x from get_eq_of_eq_some _ _ _ hx]
  exact parseValF_mono hf hx

theorem parseObjectF_eq (ts : List Token) (f : Nat) (hf : 3 * ts.length + 3 ≤ f) :
    parseObjectF f ts = some (parseObject ts) := by
  obtain ⟨x, hx⟩ := Option.isSome_iff_exists.mp ((parseF_isSome _).2.1 ts (le_refl _))
  rw [show parseObject ts = x from get_eq_of_eq_some _ _ _ hx]
  exact parseObjectF_mono hf hx

theorem parseObjectLoopF_eq (acc : List (String × Value)) (ts : List Token) (f : Nat)
    (hf : 3 * ts.length + 2 ≤ f) :
    parseObjectLoopF f acc ts = some (parseObjectLoop acc ts) := by
  obtain ⟨x, hx⟩ :=
    Option.isSome_iff_exists.mp ((parseF_isSome _).2.2.1 acc ts (le_refl _))
  rw [show parseObjectLoop acc ts = x from get_eq_of_eq_some _ _ _ hx]
  exact parseObjectLoopF_mono hf hx

theorem parseArrayF_eq (ts : List Token) (f : Nat) (hf : 3 * ts.length + 3 ≤ f) :
    parseArrayF f ts = some (parseArray ts) := by
  obtain ⟨x, hx⟩ :=
    Option.isSome_iff_exists.mp ((parseF_isSome _).2.2.2.1 ts (le_refl _))
  rw [show parseArray ts = x from get_eq_of_eq_some _ _ _ hx]
  exact parseArrayF_mono hf hx

theorem parseArrayLoopF_eq (acc : List Value) (ts : List Token) (f : Nat)
    (hf : 3 * ts.length + 2 ≤ f) :
    parseArrayLoopF f acc ts = some (parseArrayLoop acc ts) := by
  obtain ⟨x, hx⟩ :=
    Option.isSome_iff_exists.mp ((parseF_isSome _).2.2.2.2 acc ts (le_refl _))
  rw [show parseArrayLoop acc ts = x from get_eq_of_eq_some _ _ _ hx]
  exact parseArrayLoopF_mono hf hx

/-- Clean consumption: a successful parse_val leaves a strictly shorter
suffix. -/
theorem parseVal_consume (ts : List Token) (v : Value) (rest : List Token)
    (h : parseVal ts = .ok (v, rest)) : rest.length < ts.length := by
  apply parseValF_consume (3 * ts.length + 1) ts v rest
  rw [parseValF_eq ts _ (le_refl _), h]

theorem parseVal_nil : parseVal [] = .error "Unexpected end of input" := rfl

theorem parseVal_number (n : Int) (ts : List Token) :
    parseVal (.Number n :: ts) = .ok (.Number n, ts) := rfl

theorem parseVal_string (s : String) (ts : List Token) :
    parseVal (.String s :: ts) = .ok (.String s, ts) := rfl

theorem parseVal_boolean (b : Bool) (ts : List Token) :
    parseVal (.Boolean b :: ts) = .ok (.Boolean b, ts) := rfl

theorem parseVal_null (ts : List Token) :
    parseVal (.Null :: ts) = .ok (.Null, ts) := rfl

theorem parseVal_lbrace (ts : List Token) :
    parseVal (.LBraces :: ts) = parseObject ts := rfl

theorem parseVal_lbracket (ts : List Token) :
    parseVal (.LBracket :: ts) = parseArray ts := rfl

theorem parseObject_rbrace (ts : List Token) :
    parseObject (.RBraces :: ts) = .ok (.Object [], ts) := rfl

theorem parseObject_go (ts : List Token) (h : ∀ rest, ts ≠ .RBraces :: rest) :
    parseObject ts = parseObjectLoop [] ts := by
  rcases ts with _ | ⟨t, rest⟩
  · rfl
  · cases t
    case RBraces => exact absurd rfl (h rest)
    all_goals rfl

theorem parseArray_rbracket (ts : List Token) :
    parseArray (.RBracket :: ts) = .ok (.Array [], ts) := rfl

theorem parseArray_go (ts : List Token) (h : ∀ rest, ts ≠ .RBracket :: rest) :
    parseArray ts = parseArrayLoop [] ts := by
  rcases ts with _ | ⟨t, rest⟩
  · rfl
  · cases t
    case RBracket => exact absurd rfl (h rest)
    all_goals rfl

/-- The recursive behavior of the parse_object loop on a well-formed head. -/
theorem parseObjectLoop_key (acc : List (String × Value)) (k : String)
    (rest : List Token) :
    parseObjectLoop acc (.String k :: .Colon :: rest) =
      match parseVal rest with
      | .error e => .error e
      | .ok (v, .Comma :: rest3) => parseObjectLoop (acc ++ [(k, v)]) rest3
      | .ok (v, .RBraces :: rest3) => .ok (.Object (acc ++ [(k, v)]), rest3)
      | .ok (_, _) => .error "Expected \x27,\x27 or \x27\x7d\x27 after pair" := by
  apply get_eq_of_eq_some
  have hfuel : 3 * (Token.String k :: Token.Colon :: rest).length + 2 =
      (3 * rest.length + 7) + 1 := by
    simp [List.length_cons]
    ring
  rw [hfuel, parseObjectLoopF_succ]
  simp only [parseValF_eq rest (3 * rest.length + 7) (by omega)]
  cases hpv : parseVal rest with
  | error e => rfl
  | ok p =>
    obtain ⟨v, rest2⟩ := p
    rcases rest2 with _ | ⟨t3, rest3⟩
    · rfl
    · cases t3
      case Comma =>
        have hc := parseVal_consume rest v (.Comma :: rest3) hpv
        simp only [List.length_cons] at hc
        exact parseObjectLoopF_eq _ rest3 _ (by omega)
      all_goals rfl

/-- The recursive behavior of the parse_array loop. -/
theorem parseArrayLoop_eq (acc : List Value) (ts : List Token) :
    parseArrayLoop acc ts =
      match parseVal ts with
      | .error e => .error e
      | .ok (v, .Comma :: rest3) => parseArrayLoop (acc ++ [v]) rest3
      | .ok (v, .RBracket :: rest3) => .ok (.Array (acc ++ [v]), rest3)
      | .ok (_, _) => .error "Expected \x27,\x27 or \x27]\x27 after an array value" := by
  apply get_eq_of_eq_some
  have hfuel : 3 * ts.length + 2 = (3 * ts.length + 1) + 1 := by omega
  rw [hfuel, parseArrayLoopF_succ]
  simp only [parseValF_eq ts (3 * ts.length + 1) (le_refl _)]
  cases hpv : parseVal ts with
  | error e => rfl
  | ok p =>
    obtain ⟨v, rest2⟩ := p
    rcases rest2 with _ | ⟨t3, rest3⟩
    · rfl
    · cases t3
      case Comma =>
        have hc := parseVal_consume ts v (.Comma :: rest3) hpv
        simp only [List.length_cons] at hc
        exact parseArrayLoopF_eq _ rest3 _ (by omega)
      all_goals rfl

/-- C2: the scanner never fails: on every input the fueled tokenizer, given
fuel one more than the input length, terminates normally with a (possibly
empty) token sequence, the one the clean tokenize returns; no error outcome
exists.  (Rust i32 digit accumulation is embedded with release-build
wrap-on-overflow semantics; under debug-build overflow checks a long digit
run would panic instead, see the C3 record.) -/
theorem scanner_never_fails (cs : List Char) :
    ∃ ts : List Token, tokenizeF (cs.length + 1) cs = some ts ∧ tokenize cs = ts :=
  ⟨tokenize cs, tokenize_eq_some cs, rfl⟩

/-- C5: the parser is total: on every finite token sequence the fueled
parser, given fuel linear in the sequence length, terminates with a result,
and parse returns either a complete value or an error. -/
theorem parser_total (ts : List Token) :
    parseValF (3 * ts.length + 1) ts = some (parseVal ts) ∧
    ((∃ v, parse ts = .ok v) ∨ (∃ e, parse ts = .error e)) := by
  refine ⟨parseValF_eq ts _ (le_refl _), ?_⟩
  cases h : parse ts with
  | ok v => exact Or.inl ⟨v, rfl⟩
  | error e => exact Or.inr ⟨e, rfl⟩

/-- C8: top-level parse succeeds only when parse_val consumed every token:
whenever tokens remain after the first complete value, parse fails with the
extra-tokens error (so two consecutive top-level values such as the tokens
of the text 1 2 fail to parse). -/
theorem parse_rejects_extra_tokens (ts : List Token) (v : Value) (rest : List Token)
    (h : parseVal ts = .ok (v, rest)) (hne : rest ≠ []) :
    parse ts = .error "Extra tokens after valid JSON value" := by
  unfold parse
  rw [h]
  rcases rest with _ | ⟨t, rest⟩
  · exact absurd rfl hne
  · rfl

theorem parse_rejects_extra_tokens_witness :
    parse [Token.Number 1, Token.Number 2] = .error "Extra tokens after valid JSON value" :=
  parse_rejects_extra_tokens [Token.Number 1, Token.Number 2] (Value.Number 1)
    [Token.Number 2] rfl (by simp)

/-- C9: a trailing comma before a closing brace or bracket is rejected: in
the object loop, a pair followed by a comma and an immediate closing brace
fails with the string-key error; in the array loop, a value followed by a
comma and an immediate closing bracket fails with the unexpected-token
error; in particular the token sequences of the texts with a trailing comma
inside braces or brackets make parse return an error, never a value. -/
theorem trailing_comma_rejected :
    (∀ (acc : List (String × Value)) (k : String) (ts : List Token) (v : Value)
        (rest : List Token), parseVal ts = .ok (v, .Comma :: .RBraces :: rest) →
        parseObjectLoop acc (.String k :: .Colon :: ts) =
          .error "Expected string key in object") ∧
    (∀ (acc : List Value) (ts : List Token) (v : Value) (rest : List Token),
        parseVal ts = .ok (v, .Comma :: .RBracket :: rest) →
        parseArrayLoop acc ts = .error "Unexpected token: RBracket") ∧
    parse [Token.LBraces, Token.String "a", Token.Colon, Token.Number 1,
        Token.Comma, Token.RBraces] = .error "Expected string key in object" ∧
    parse [Token.LBracket, Token.Number 1, Token.Comma, Token.RBracket] =
      .error "Unexpected token: RBracket" := by
  refine ⟨?_, ?_, rfl, rfl⟩
  · intro acc k ts v rest h
    rw [parseObjectLoop_key, h]
    rfl
  · intro acc ts v rest h
    rw [parseArrayLoop_eq, h]
    rfl

theorem trailing_comma_rejected_witness :
    parseObjectLoop [] [Token.String "a", Token.Colon, Token.Number 1,
        Token.Comma, Token.RBraces] = .error "Expected string key in object" ∧
    parseArrayLoop [] [Token.Number 1, Token.Comma, Token.RBracket] =
      .error "Unexpected token: RBracket" :=
  ⟨trailing_comma_rejected.1 [] "a" [Token.Number 1, Token.Comma, Token.RBraces]
      (Value.Number 1) [] rfl,
   trailing_comma_rejected.2.1 [] [Token.Number 1, Token.Comma, Token.RBracket]
      (Value.Number 1) [] rfl⟩

/-- C10: arithmetic and grouping tokens are never accepted: whenever parse
returns Ok, the token sequence contains no Plus, Minus, Multiply, Divide,
LParenthesis, RParenthesis or Unknown token at any position. -/
theorem parse_ok_no_arith (ts : List Token) (v : Value) (h : parse ts = .ok v) :
    ∀ t ∈ ts, isArith t = false := by
  unfold parse at h
  cases hpv : parseVal ts with
  | error e => rw [hpv] at h; simp at h
  | ok p =>
    obtain ⟨v', rest⟩ := p
    rw [hpv] at h
    rcases rest with _ | ⟨t0, rest⟩
    · have hF : parseValF (3 * ts.length + 1) ts = some (.ok (v', [])) := by
        rw [parseValF_eq ts _ (le_refl _), hpv]
      obtain ⟨used, hu, _, hgood⟩ := (parseF_spec _).1 ts v' [] hF
      rw [List.append_nil] at hu
      subst hu
      exact hgood
    · simp at h

theorem parse_ok_no_arith_witness :
    isArith (Token.Number 1) = false :=
  parse_ok_no_arith [Token.LBracket, Token.Number 1, Token.RBracket]
    (Value.Array [Value.Number 1]) rfl (Token.Number 1) (by simp)

/-- C3 (code bug record): the pipeline on the decimal text of 2 to the 31st
power: i32 accumulation wraps, so the parsed tree holds the negative number
-2147483648, violating the non-negativity invariant the specification
states (a debug build would panic at the same input instead). -/
theorem number_overflow_wraps_negative :
    parse (tokenize ['2', '1', '4', '7', '4', '8', '3', '6', '4', '8']) =
      .ok (.Number (-2147483648)) ∧ (-2147483648 : Int) < 0 :=
  ⟨rfl, by decide⟩

theorem readNumber_subset : ∀ (cs : List Char) (n : Int),
    ∀ x ∈ (readNumber n cs).2, x ∈ cs := by
  intro cs
  induction cs with
  | nil => intro n x hx; simp [readNumber] at hx
  | cons c cs ih =>
    intro n x hx
    simp only [readNumber] at hx
    split at hx
    · exact List.mem_cons_of_mem c (ih _ x hx)
    · exact hx

theorem dropWhile_subset (p : Char → Bool) :
    ∀ cs : List Char, ∀ x ∈ cs.dropWhile p, x ∈ cs := by
  intro cs
  induction cs with
  | nil => intro x hx; simp at hx
  | cons c cs ih =>
    intro x hx
    simp only [List.dropWhile] at hx
    split at hx
    · exact List.mem_cons_of_mem c (ih x hx)
    · exact hx

/-- read_string consumes the whole input and yields the sentinel when no
closing quote exists. -/
theorem readString_no_quote : ∀ (cs : List Char) (acc : List Char),
    (∀ c ∈ cs, c ≠ '"') → readString acc cs = (.Unknown '"', []) := by
  intro cs
  induction cs with
  | nil => intro acc _; rfl
  | cons c cs ih =>
    intro acc h
    simp only [readString]
    rw [if_neg (h c (by simp))]
    exact ih _ (fun x hx => h x (by simp [hx]))

/-- read_string stops at the first closing quote, returning the consumed
content appended to the accumulator. -/
theorem readString_closed : ∀ (s acc k : List Char), (∀ c ∈ s, c ≠ '"') →
    readString acc (s ++ '"' :: k) = (.String (String.mk (acc ++ s)), k) := by
  intro s
  induction s with
  | nil => intro acc k _; simp [readString]
  | cons c s ih =>
    intro acc k h
    simp only [List.cons_append, readString, List.append_eq]
    rw [if_neg (h c (by simp))]
    rw [ih (acc ++ [c]) k (fun x hx => h x (by simp [hx]))]
    simp

theorem readNumber_append : ∀ (xs : List Char) (n : Int) (y : Char) (ys : List Char),
    isDigitChar y = false →
    readNumber n (xs ++ y :: ys) = ((readNumber n xs).1, (readNumber n xs).2 ++ y :: ys) := by
  intro xs
  induction xs with
  | nil =>
    intro n y ys hy
    simp only [List.nil_append, readNumber]
    rw [if_neg (by simp [hy])]
  | cons c xs ih =>
    intro n y ys hy
    simp only [List.cons_append, readNumber]
    split
    · exact ih _ y ys hy
    · rfl

theorem takeWhile_append_stop (p : Char → Bool) :
    ∀ (xs : List Char) (y : Char) (ys : List Char), p y = false →
    (xs ++ y :: ys).takeWhile p = xs.takeWhile p := by
  intro xs
  induction xs with
  | nil => intro y ys hy; simp [List.takeWhile, hy]
  | cons c xs ih =>
    intro y ys hy
    simp only [List.cons_append, List.takeWhile, List.append_eq]
    split
    · rw [ih y ys hy]
    · rfl

theorem dropWhile_append_stop (p : Char → Bool) :
    ∀ (xs : List Char) (y : Char) (ys : List Char), p y = false →
    (xs ++ y :: ys).dropWhile p = xs.dropWhile p ++ y :: ys := by
  intro xs
  induction xs with
  | nil => intro y ys hy; simp [List.dropWhile, hy]
  | cons c xs ih =>
    intro y ys hy
    simp only [List.cons_append, List.dropWhile, List.append_eq]
    split
    · exact ih y ys hy
    · rfl

theorem readKeyword_append (c : Char) (xs : List Char) (y : Char) (ys : List Char)
    (hy : isAsciiAlphabetic y = false) :
    readKeyword c (xs ++ y :: ys) =
      ((readKeyword c xs).1, (readKeyword c xs).2 ++ y :: ys) := by
  simp only [readKeyword, takeWhile_append_stop _ xs y ys hy,
    dropWhile_append_stop _ xs y ys hy]

/-- Skipping one whitespace character does not change the token sequence. -/
theorem tokenize_ws_cons (c : Char) (cs : List Char) (h : rustIsWhitespace c = true) :
    tokenize (c :: cs) = tokenize cs := by
  rw [tokenize_eq (c :: cs), tokenize_eq cs]
  simp only [nextToken, h, if_true]

/-- The dispatch of a non-quote character relates an input with a appended
quote-started suffix to the same input without it: the same token comes out
and the suffix is untouched. -/
theorem dispatchToken_append_quote (c : Char) (hc : c ≠ '"') (xs ys : List Char) :
    ∃ T M, dispatchToken c xs = (T, M) ∧
      dispatchToken c (xs ++ '"' :: ys) = (T, M ++ '"' :: ys) ∧
      M.length ≤ xs.length ∧ ∀ x ∈ M, x ∈ xs := by
  rcases dispatchToken_shape c with ⟨t, _, _, _, he⟩ | ⟨_, he⟩ | ⟨hq, _⟩ | ⟨_, he⟩
  · exact ⟨t, xs, he xs, by rw [he (xs ++ '"' :: ys)], le_refl _, fun x hx => hx⟩
  · refine ⟨.Number (readNumber (digitVal c) xs).1, (readNumber (digitVal c) xs).2,
      he xs, ?_, readNumber_length_le xs _, readNumber_subset xs _⟩
    rw [he (xs ++ '"' :: ys), readNumber_append xs _ '"' ys (by decide)]
  · exact absurd hq hc
  · refine ⟨(readKeyword c xs).1, (readKeyword c xs).2, by rw [he xs], ?_, ?_, ?_⟩
    · rw [he (xs ++ '"' :: ys), readKeyword_append c xs '"' ys (by decide)]
    · simp only [readKeyword]
      exact dropWhile_length_le _ _
    · simp only [readKeyword]
      exact dropWhile_subset _ _

/-- An unterminated string at the very start of scanning yields exactly the
sentinel token and ends the scan. -/
theorem tokenize_quote_unterminated (rest : List Char) (h : ∀ c ∈ rest, c ≠ '"') :
    tokenize ('"' :: rest) = [Token.Unknown '"'] := by
  rw [tokenize_eq]
  simp only [show nextToken ('"' :: rest) = some (readString [] rest) from rfl,
    readString_no_quote rest [] h]
  rfl

/-- C4 (amended): when the scanner reaches a double quote that is never
closed, the tokens scanned before it are kept, the single Unknown quote
sentinel is appended as the final token, and nothing follows it.  (The
claim as frozen says the earlier tokens are discarded; the counterexample
shows they are not.) -/
theorem tokenize_unterminated_keeps_prefix (pre rest : List Char)
    (hpre : ∀ c ∈ pre, c ≠ '"') (hrest : ∀ c ∈ rest, c ≠ '"') :
    tokenize (pre ++ '"' :: rest) = tokenize pre ++ [Token.Unknown '"'] := by
  suffices H : ∀ (n : Nat) (pre : List Char), pre.length ≤ n → (∀ c ∈ pre, c ≠ '"') →
      tokenize (pre ++ '"' :: rest) = tokenize pre ++ [Token.Unknown '"'] by
    exact H pre.length pre (le_refl _) hpre
  intro n
  induction n with
  | zero =>
    intro pre hlen hp
    have hnil : pre = [] := List.eq_nil_of_length_eq_zero (by omega)
    subst hnil
    simp only [List.nil_append]
    rw [tokenize_quote_unterminated rest hrest]
    rfl
  | succ n ihn =>
    intro pre hlen hp
    rcases pre with _ | ⟨c, pre1⟩
    · simp only [List.nil_append]
      rw [tokenize_quote_unterminated rest hrest]
      rfl
    · have hc : c ≠ '"' := hp c (by simp)
      have hp1 : ∀ x ∈ pre1, x ≠ '"' := fun x hx => hp x (by simp [hx])
      have hlen1 : pre1.length ≤ n := by simp only [List.length_cons] at hlen; omega
      by_cases hws : rustIsWhitespace c
      · rw [show (c :: pre1) ++ '"' :: rest = c :: (pre1 ++ '"' :: rest) from rfl]
        rw [tokenize_ws_cons c _ hws, tokenize_ws_cons c pre1 hws]
        exact ihn pre1 hlen1 hp1
      · obtain ⟨T, M, hd1, hd2, hlenM, hsubM⟩ :=
          dispatchToken_append_quote c hc pre1 rest
        rw [show (c :: pre1) ++ '"' :: rest = c :: (pre1 ++ '"' :: rest) from rfl]
        rw [tokenize_eq (c :: (pre1 ++ '"' :: rest)), tokenize_eq (c :: pre1)]
        have hnt1 : nextToken (c :: (pre1 ++ '"' :: rest)) =
            some (dispatchToken c (pre1 ++ '"' :: rest)) := by
          simp only [nextToken]
          rw [if_neg hws]
        have hnt2 : nextToken (c :: pre1) = some (dispatchToken c pre1) := by
          simp only [nextToken]
          rw [if_neg hws]
        rw [hnt1, hnt2, hd1, hd2]
        show T :: tokenize (M ++ '"' :: rest) = (T :: tokenize M) ++ [Token.Unknown '"']
        rw [ihn M (by omega) (fun x hx => hp1 x (hsubM x hx))]
        rfl

theorem tokenize_unterminated_keeps_prefix_witness :
    tokenize (['1', ' '] ++ '"' :: ['a']) = tokenize ['1', ' '] ++ [Token.Unknown '"'] :=
  tokenize_unterminated_keeps_prefix ['1', ' '] ['a'] (by decide) (by decide)

/-- C4 (counterexample): with a number token scanned before the unterminated
string, tokenize keeps that token, so the result is not the single-element
sentinel sequence the claim asserts. -/
theorem tokenize_unterminated_counterexample :
    tokenize ['1', ' ', '"', 'a'] = [Token.Number 1, Token.Unknown '"'] ∧
    tokenize ['1', ' ', '"', 'a'] ≠ [Token.Unknown '"'] :=
  ⟨rfl, by decide⟩

theorem takeWhile_all (p : Char → Bool) :
    ∀ xs : List Char, (∀ x ∈ xs, p x = true) → xs.takeWhile p = xs := by
  intro xs
  induction xs with
  | nil => intro _; rfl
  | cons c xs ih =>
    intro h
    simp only [List.takeWhile, h c (by simp)]
    rw [ih (fun x hx => h x (by simp [hx]))]

theorem dropWhile_all (p : Char → Bool) :
    ∀ xs : List Char, (∀ x ∈ xs, p x = true) → xs.dropWhile p = [] := by
  intro xs
  induction xs with
  | nil => intro _; rfl
  | cons c xs ih =>
    intro h
    simp only [List.dropWhile, h c (by simp)]
    exact ih (fun x hx => h x (by simp [hx]))

/-- The token read_keyword produces for a word: the keyword token on an
exact match, otherwise Unknown of the word's first character. -/
def kwToken (c0 : Char) (w : List Char) : Token :=
  if String.mk (c0 :: w) = "true" then .Boolean true
  else if String.mk (c0 :: w) = "false" then .Boolean false
  else if String.mk (c0 :: w) = "null" then .Null
  else .Unknown c0

/-- The scanner on a maximal alphabetic word starting with t, f or n at a
scan point: one token for the whole word, then scanning continues after
it. -/
theorem tokenize_keyword_at (c0 : Char) (w rest : List Char)
    (hc0 : c0 = 't' ∨ c0 = 'f' ∨ c0 = 'n')
    (hw : ∀ c ∈ w, isAsciiAlphabetic c = true)
    (hrest : rest = [] ∨ ∃ c rest2, rest = c :: rest2 ∧ isAsciiAlphabetic c = false) :
    tokenize (c0 :: (w ++ rest)) = kwToken c0 w :: tokenize rest := by
  have htw : (w ++ rest).takeWhile isAsciiAlphabetic = w := by
    rcases hrest with rfl | ⟨c, rest2, rfl, hcna⟩
    · rw [List.append_nil]
      exact takeWhile_all _ w hw
    · rw [takeWhile_append_stop _ w c rest2 hcna]
      exact takeWhile_all _ w hw
  have hdw : (w ++ rest).dropWhile isAsciiAlphabetic = rest := by
    rcases hrest with rfl | ⟨c, rest2, rfl, hcna⟩
    · rw [List.append_nil]
      simp [dropWhile_all _ w hw]
    · rw [dropWhile_append_stop _ w c rest2 hcna]
      simp [dropWhile_all _ w hw]
  rw [tokenize_eq]
  have hnt : nextToken (c0 :: (w ++ rest)) = some (readKeyword c0 (w ++ rest)) := by
    rcases hc0 with rfl | rfl | rfl <;> rfl
  rw [hnt]
  have hkw : readKeyword c0 (w ++ rest) = (kwToken c0 w, rest) := by
    simp only [readKeyword, htw, hdw, kwToken]
  rw [hkw]

/-- C6: for a maximal ASCII-alphabetic word starting with t, f or n at a
scan point (the following character, if any, is not alphabetic), the
scanner emits exactly one token for the whole word: the Boolean or Null
token on an exact keyword match and otherwise Unknown of the first
character, and scanning continues after the word with none of its
characters re-scanned. -/
theorem keyword_recognition (c0 : Char) (w rest : List Char)
    (hc0 : c0 = 't' ∨ c0 = 'f' ∨ c0 = 'n')
    (hw : ∀ c ∈ w, isAsciiAlphabetic c = true)
    (hrest : rest = [] ∨ ∃ c rest2, rest = c :: rest2 ∧ isAsciiAlphabetic c = false) :
    tokenize (c0 :: (w ++ rest)) = kwToken c0 w :: tokenize rest :=
  tokenize_keyword_at c0 w rest hc0 hw hrest

theorem keyword_recognition_witness :
    tokenize ['t', 'r', 'u', 't', 'h'] = [Token.Unknown 't'] :=
  (keyword_recognition 't' ['r', 'u', 't', 'h'] [] (Or.inl rfl) (by decide)
    (Or.inl rfl)).trans (by decide)

theorem wrap32_eq (x : Int) (h0 : 0 ≤ x) (h1 : x < 2147483648) : wrap32 x = x := by
  unfold wrap32
  rw [Int.emod_eq_of_lt (by omega) (by omega)]
  omega

/-- The value of a digit string under the scanner's accumulation. -/
def digitsVal (ds : List Char) : Int :=
  ds.foldl (fun a c => a * 10 + digitVal c) 0

theorem foldl_digits_le : ∀ (ds : List Char) (acc : Int), 0 ≤ acc →
    (∀ c ∈ ds, isDigitChar c = true) →
    acc ≤ ds.foldl (fun a c => a * 10 + digitVal c) acc := by
  intro ds
  induction ds with
  | nil => intro acc h _; simp
  | cons c ds ih =>
    intro acc hacc hds
    simp only [List.foldl_cons]
    have hb := isDigitChar_bounds (hds c (by simp))
    have hdv : 0 ≤ digitVal c := by simp only [digitVal]; omega
    have hacc2 : 0 ≤ acc * 10 + digitVal c := by omega
    calc acc ≤ acc * 10 + digitVal c := by omega
      _ ≤ _ := ih _ hacc2 (fun x hx => hds x (by simp [hx]))

/-- read_number consumes exactly a digit run, computing its base-10 value
without wrapping when the run's value is i32-representable. -/
theorem readNumber_digits : ∀ (ds : List Char) (acc : Int) (k : List Char),
    (∀ c ∈ ds, isDigitChar c = true) → 0 ≤ acc →
    ds.foldl (fun a c => a * 10 + digitVal c) acc < 2147483648 →
    (k = [] ∨ ∃ c k2, k = c :: k2 ∧ isDigitChar c = false) →
    readNumber acc (ds ++ k) =
      (ds.foldl (fun a c => a * 10 + digitVal c) acc, k) := by
  intro ds
  induction ds with
  | nil =>
    intro acc k _ _ _ hk
    simp only [List.nil_append, List.foldl_nil]
    rcases hk with rfl | ⟨c, k2, rfl, hc⟩
    · rfl
    · simp [readNumber, hc]
  | cons d ds ih =>
    intro acc k hds hacc hlt hk
    have hd := hds d (by simp)
    have hb := isDigitChar_bounds hd
    have hdv : 0 ≤ digitVal d := by simp only [digitVal]; omega
    have hacc2 : 0 ≤ acc * 10 + digitVal d := by omega
    simp only [List.foldl_cons] at hlt
    have hle := foldl_digits_le ds (acc * 10 + digitVal d) hacc2
      (fun x hx => hds x (by simp [hx]))
    simp only [List.cons_append, readNumber, List.append_eq]
    rw [if_pos hd, wrap32_eq _ hacc2 (by omega)]
    rw [ih _ k (fun x hx => hds x (by simp [hx])) hacc2 hlt hk]
    simp [List.foldl_cons]

/-- The scanner on a digit run at a scan point: one Number token carrying
the run's value, then scanning continues at the non-digit continuation. -/
theorem tokenize_digits_at (s k : List Char) (hne : s ≠ [])
    (hd : ∀ c ∈ s, isDigitChar c = true) (hv : digitsVal s < 2147483648)
    (hk : k = [] ∨ ∃ c k2, k = c :: k2 ∧ isDigitChar c = false) :
    tokenize (s ++ k) = Token.Number (digitsVal s) :: tokenize k := by
  rcases s with _ | ⟨c, cs⟩
  · exact absurd rfl hne
  have hc := hd c (by simp)
  have hb := isDigitChar_bounds hc
  have hdvc : digitsVal (c :: cs) =
      cs.foldl (fun a x => a * 10 + digitVal x) (digitVal c) := by
    simp [digitsVal]
  rw [show (c :: cs) ++ k = c :: (cs ++ k) from rfl]
  rw [tokenize_eq]
  have hws : rustIsWhitespace c = false := rustIsWhitespace_false c (by omega) (by omega)
  have hnt : nextToken (c :: (cs ++ k)) = some (dispatchToken c (cs ++ k)) := by
    simp only [nextToken]
    rw [if_neg (by simp [hws])]
  rw [hnt]
  rcases dispatchToken_shape c with ⟨t, hdig, _, _, he⟩ | ⟨_, he⟩ | ⟨hq, _⟩ | ⟨hk2, _⟩
  · rw [hc] at hdig
    exact absurd hdig (by simp)
  · rw [he (cs ++ k)]
    have hnum := readNumber_digits cs (digitVal c) k
      (fun x hx => hd x (by simp [hx]))
      (by simp only [digitVal]; omega)
      (by rw [← hdvc]; exact hv)
      hk
    rw [hnum, ← hdvc]
  · exfalso
    subst hq
    exact absurd hb (by decide)
  · exfalso
    rcases hk2 with rfl | rfl | rfl <;> exact absurd hb (by decide)

/-- C7: tokenizing the decimal text of a non-negative integer below 2 to
the 31st power, leading zeros allowed, yields exactly one Number token
carrying that value. -/
theorem tokenize_decimal (s : List Char) (hne : s ≠ [])
    (hd : ∀ c ∈ s, isDigitChar c = true) (hv : digitsVal s < 2147483648) :
    tokenize s = [Token.Number (digitsVal s)] := by
  have h := tokenize_digits_at s [] hne hd hv (Or.inl rfl)
  rw [List.append_nil] at h
  rw [h]
  rfl

theorem tokenize_decimal_witness :
    tokenize ['0', '0', '7'] = [Token.Number 7] :=
  (tokenize_decimal ['0', '0', '7'] (by decide) (by decide) (by decide)).trans
    (by decide)

def digitChar : Nat → Char
  | 0 => '0'
  | 1 => '1'
  | 2 => '2'
  | 3 => '3'
  | 4 => '4'
  | 5 => '5'
  | 6 => '6'
  | 7 => '7'
  | 8 => '8'
  | _ => '9'

/-- Modelled from the spec: the decimal text of a non-negative integer (the
grammar's number form; no renderer to the grammar's text exists in the
sources, whose pretty_print emits an indented form instead). -/
def toDecimal (n : Nat) : List Char :=
  if h : n < 10 then [digitChar n]
  else toDecimal (n / 10) ++ [digitChar (n % 10)]
termination_by n
decreasing_by exact Nat.div_lt_self (by omega) (by omega)

mutual

/-- Modelled from the spec: the grammar's textual form of a Value tree —
objects as brace-enclosed comma-separated quoted-key colon pairs, arrays as
bracket-enclosed comma-separated values, strings quoted verbatim, numbers
in decimal (negative ones, which the grammar cannot express, with a leading
minus), true/false/null keywords. -/
def renderValue : Value → List Char
  | .Object l => '\x7b' :: (renderPairs l ++ ['\x7d'])
  | .Array l => '[' :: (renderElems l ++ [']'])
  | .String s => '"' :: (s.data ++ ['"'])
  | .Number n => if n < 0 then '-' :: toDecimal n.natAbs else toDecimal n.toNat
  | .Boolean b => if b then ['t', 'r', 'u', 'e'] else ['f', 'a', 'l', 's', 'e']
  | .Null => ['n', 'u', 'l', 'l']

def renderElems : List Value → List Char
  | [] => []
  | v :: vs => renderValue v ++ renderElemsRest vs

def renderElemsRest : List Value → List Char
  | [] => []
  | v :: vs => ',' :: (renderValue v ++ renderElemsRest vs)

def renderPairs : List (String × Value) → List Char
  | [] => []
  | (k, v) :: ps => '"' :: (k.data ++ '"' :: ':' :: (renderValue v ++ renderPairsRest ps))

def renderPairsRest : List (String × Value) → List Char
  | [] => []
  | (k, v) :: ps =>
    ',' :: '"' :: (k.data ++ '"' :: ':' :: (renderValue v ++ renderPairsRest ps))

end

mutual

/-- The token sequence of a Value tree under the grammar. -/
def tokensOf : Value → List Token
  | .Object l => .LBraces :: (tokensPairs l ++ [.RBraces])
  | .Array l => .LBracket :: (tokensElems l ++ [.RBracket])
  | .String s => [.String s]
  | .Number n => [.Number n]
  | .Boolean b => [.Boolean b]
  | .Null => [.Null]

def tokensElems : List Value → List Token
  | [] => []
  | v :: vs => tokensOf v ++ tokensRest vs

def tokensRest : List Value → List Token
  | [] => []
  | v :: vs => .Comma :: (tokensOf v ++ tokensRest vs)

def tokensPairs : List (String × Value) → List Token
  | [] => []
  | (k, v) :: ps => .String k :: .Colon :: (tokensOf v ++ tokensPairsRest ps)

def tokensPairsRest : List (String × Value) → List Token
  | [] => []
  | (k, v) :: ps => .Comma :: .String k :: .Colon :: (tokensOf v ++ tokensPairsRest ps)

end

/-- A string the round trip supports: no double quote and no backslash
(escape character) among its characters. -/
def goodString (s : String) : Bool :=
  s.data.all (fun c => !(c = '"' || c = '\\'))

mutual

/-- The round-trip domain: every string and object key free of quotes and
escapes, every number non-negative and i32-representable. -/
def goodB : Value → Bool
  | .Object l => goodPairs l
  | .Array l => goodElems l
  | .String s => goodString s
  | .Number n => decide (0 ≤ n) && decide (n < 2147483648)
  | .Boolean _ => true
  | .Null => true

def goodElems : List Value → Bool
  | [] => true
  | v :: vs => goodB v && goodElems vs

def goodPairs : List (String × Value) → Bool
  | [] => true
  | (k, v) :: ps => goodString k && goodB v && goodPairs ps

end

/-- A rendering continuation: empty, or starting with a separator or a
closing delimiter — the characters that can follow a rendered value. -/
def boundary : List Char → Bool
  | [] => true
  | c :: _ => c = ',' || c = ']' || c = '\x7d'

theorem Value.induct (P : Value → Prop)
    (hObj : ∀ l, (∀ p ∈ l, P p.2) → P (.Object l))
    (hArr : ∀ l, (∀ v ∈ l, P v) → P (.Array l))
    (hStr : ∀ s, P (.String s))
    (hNum : ∀ n, P (.Number n))
    (hBool : ∀ b, P (.Boolean b))
    (hNull : P .Null) : ∀ v, P v
  | .Object l => hObj l (fun p hp => Value.induct P hObj hArr hStr hNum hBool hNull p.2)
  | .Array l => hArr l (fun v hv => Value.induct P hObj hArr hStr hNum hBool hNull v)
  | .String s => hStr s
  | .Number n => hNum n
  | .Boolean b => hBool b
  | .Null => hNull
termination_by v => sizeOf v
decreasing_by
  · have h1 := List.sizeOf_lt_of_mem hp
    cases p
    simp at h1 ⊢
    omega
  · have h1 := List.sizeOf_lt_of_mem hv
    simp
    omega

theorem tokensOf_head_cases (v : Value) :
    ∃ t ts0, tokensOf v = t :: ts0 ∧ t ≠ Token.RBracket ∧ t ≠ Token.RBraces := by
  cases v with
  | Object l => exact ⟨.LBraces, _, rfl, by decide, by decide⟩
  | Array l => exact ⟨.LBracket, _, rfl, by decide, by decide⟩
  | String s => exact ⟨.String s, _, rfl, by simp, by simp⟩
  | Number n => exact ⟨.Number n, _, rfl, by simp, by simp⟩
  | Boolean b => exact ⟨.Boolean b, _, rfl, by simp, by simp⟩
  | Null => exact ⟨.Null, _, rfl, by decide, by decide⟩

theorem parseArrayLoop_tokens : ∀ (l : List Value) (acc : List Value) (ts : List Token),
    (∀ v ∈ l, ∀ ts2 : List Token, parseVal (tokensOf v ++ ts2) = .ok (v, ts2)) →
    l ≠ [] →
    parseArrayLoop acc (tokensElems l ++ .RBracket :: ts) = .ok (.Array (acc ++ l), ts) := by
  intro l
  induction l with
  | nil => intro acc ts _ h; exact absurd rfl h
  | cons v vs ih =>
    intro acc ts hl _
    rw [show tokensElems (v :: vs) = tokensOf v ++ tokensRest vs from rfl]
    rw [parseArrayLoop_eq, List.append_assoc]
    rw [hl v (by simp) (tokensRest vs ++ .RBracket :: ts)]
    cases vs with
    | nil =>
      show Except.ok (Value.Array (acc ++ [v]), ts) = _
      simp
    | cons v2 vs2 =>
      rw [show tokensRest (v2 :: vs2) = .Comma :: (tokensOf v2 ++ tokensRest vs2) from rfl]
      show parseArrayLoop (acc ++ [v]) ((tokensOf v2 ++ tokensRest vs2) ++ .RBracket :: ts) = _
      rw [show (tokensOf v2 ++ tokensRest vs2 : List Token) = tokensElems (v2 :: vs2) from rfl]
      rw [ih (acc ++ [v]) ts (fun x hx ts2 => hl x (by simp [hx]) ts2) (by simp)]
      simp

theorem parseObjectLoop_tokens :
    ∀ (l : List (String × Value)) (acc : List (String × Value)) (ts : List Token),
    (∀ p ∈ l, ∀ ts2 : List Token, parseVal (tokensOf p.2 ++ ts2) = .ok (p.2, ts2)) →
    l ≠ [] →
    parseObjectLoop acc (tokensPairs l ++ .RBraces :: ts) = .ok (.Object (acc ++ l), ts) := by
  intro l
  induction l with
  | nil => intro acc ts _ h; exact absurd rfl h
  | cons p ps ih =>
    intro acc ts hl _
    obtain ⟨k, v⟩ := p
    rw [show tokensPairs ((k, v) :: ps) =
      .String k :: .Colon :: (tokensOf v ++ tokensPairsRest ps) from rfl]
    show parseObjectLoop acc
      (.String k :: .Colon :: ((tokensOf v ++ tokensPairsRest ps) ++ .RBraces :: ts)) = _
    rw [parseObjectLoop_key, List.append_assoc]
    rw [hl (k, v) (by simp) (tokensPairsRest ps ++ .RBraces :: ts)]
    cases ps with
    | nil =>
      show Except.ok (Value.Object (acc ++ [(k, v)]), ts) = _
      simp
    | cons p2 ps2 =>
      obtain ⟨k2, v2⟩ := p2
      rw [show tokensPairsRest ((k2, v2) :: ps2) =
        .Comma :: .String k2 :: .Colon :: (tokensOf v2 ++ tokensPairsRest ps2) from rfl]
      show parseObjectLoop (acc ++ [(k, v)])
        ((.String k2 :: .Colon :: (tokensOf v2 ++ tokensPairsRest ps2)) ++ .RBraces :: ts) = _
      rw [show (Token.String k2 :: Token.Colon :: (tokensOf v2 ++ tokensPairsRest ps2) :
        List Token) = tokensPairs ((k2, v2) :: ps2) from rfl]
      rw [ih (acc ++ [(k, v)]) ts (fun x hx ts2 => hl x (by simp [hx]) ts2) (by simp)]
      simp

/-- Parser completeness for the grammar's token sequences: parse_val on the
tokens of a value, followed by anything, returns exactly that value and the
untouched remainder. -/
theorem parseVal_tokensOf : ∀ (v : Value) (ts : List Token),
    parseVal (tokensOf v ++ ts) = .ok (v, ts) := by
  intro v
  induction v using Value.induct with
  | hStr s => intro ts; exact parseVal_string s ts
  | hNum n => intro ts; exact parseVal_number n ts
  | hBool b => intro ts; exact parseVal_boolean b ts
  | hNull => intro ts; exact parseVal_null ts
  | hArr l hl =>
    intro ts
    rw [show tokensOf (.Array l) = .LBracket :: (tokensElems l ++ [.RBracket]) from rfl]
    rw [show (Token.LBracket :: (tokensElems l ++ [Token.RBracket])) ++ ts =
      Token.LBracket :: (tokensElems l ++ Token.RBracket :: ts) by simp]
    rw [parseVal_lbracket]
    cases l with
    | nil =>
      rw [show tokensElems ([] : List Value) = [] from rfl, List.nil_append]
      exact parseArray_rbracket ts
    | cons v vs =>
      rw [parseArray_go]
      · have h := parseArrayLoop_tokens (v :: vs) [] ts hl (by simp)
        simpa using h
      · intro rest heq
        obtain ⟨t, ts0, hts, hneq, _⟩ := tokensOf_head_cases v
        rw [show tokensElems (v :: vs) = tokensOf v ++ tokensRest vs from rfl, hts] at heq
        simp only [List.cons_append, List.cons.injEq] at heq
        exact hneq heq.1
  | hObj l hl =>
    intro ts
    rw [show tokensOf (.Object l) = .LBraces :: (tokensPairs l ++ [.RBraces]) from rfl]
    rw [show (Token.LBraces :: (tokensPairs l ++ [Token.RBraces])) ++ ts =
      Token.LBraces :: (tokensPairs l ++ Token.RBraces :: ts) by simp]
    rw [parseVal_lbrace]
    cases l with
    | nil =>
      rw [show tokensPairs ([] : List (String × Value)) = [] from rfl, List.nil_append]
      exact parseObject_rbrace ts
    | cons p ps =>
      rw [parseObject_go]
      · have h := parseObjectLoop_tokens (p :: ps) [] ts hl (by simp)
        simpa using h
      · intro rest heq
        obtain ⟨k, v⟩ := p
        rw [show tokensPairs ((k, v) :: ps) =
          .String k :: .Colon :: (tokensOf v ++ tokensPairsRest ps) from rfl] at heq
        simp at heq

/-- A character whose dispatch is a fixed single token steps the scanner by
one token. -/
theorem tokenize_cons_tok (c : Char) (k : List Char) (t : Token)
    (hws : rustIsWhitespace c = false) (hd : ∀ cs, dispatchToken c cs = (t, cs)) :
    tokenize (c :: k) = t :: tokenize k := by
  rw [tokenize_eq]
  have hnt : nextToken (c :: k) = some (t, k) := by
    simp only [nextToken]
    rw [if_neg (by simp [hws]), hd k]
  rw [hnt]

/-- The scanner on a quoted string with no embedded quote: one String token,
then scanning continues after the closing quote. -/
theorem tokenize_string_at (s k : List Char) (hs : ∀ c ∈ s, c ≠ '"') :
    tokenize ('"' :: (s ++ '"' :: k)) = Token.String (String.mk s) :: tokenize k := by
  rw [tokenize_eq]
  have hnt : nextToken ('"' :: (s ++ '"' :: k)) =
      some (readString [] (s ++ '"' :: k)) := rfl
  rw [hnt, readString_closed s [] k hs]
  simp

theorem boundary_nondigit (k : List Char) (h : boundary k = true) :
    k = [] ∨ ∃ c k2, k = c :: k2 ∧ isDigitChar c = false := by
  rcases k with _ | ⟨c, k2⟩
  · exact Or.inl rfl
  · simp only [boundary, Bool.or_eq_true, decide_eq_true_eq] at h
    rcases h with (rfl | rfl) | rfl
    · exact Or.inr ⟨_, _, rfl, by decide⟩
    · exact Or.inr ⟨_, _, rfl, by decide⟩
    · exact Or.inr ⟨_, _, rfl, by decide⟩

theorem boundary_nonalpha (k : List Char) (h : boundary k = true) :
    k = [] ∨ ∃ c k2, k = c :: k2 ∧ isAsciiAlphabetic c = false := by
  rcases k with _ | ⟨c, k2⟩
  · exact Or.inl rfl
  · simp only [boundary, Bool.or_eq_true, decide_eq_true_eq] at h
    rcases h with (rfl | rfl) | rfl
    · exact Or.inr ⟨_, _, rfl, by decide⟩
    · exact Or.inr ⟨_, _, rfl, by decide⟩
    · exact Or.inr ⟨_, _, rfl, by decide⟩

theorem digitChar_isDigit : ∀ n : Nat, isDigitChar (digitChar n) = true := by
  intro n
  rcases n with _ | _ | _ | _ | _ | _ | _ | _ | _ | n <;> rfl

theorem digitChar_val (k : Nat) (h : k < 10) : digitVal (digitChar k) = (k : Int) := by
  interval_cases k <;> decide

theorem toDecimal_ne_nil (n : Nat) : toDecimal n ≠ [] := by
  rw [toDecimal]
  split
  · simp
  · simp

theorem toDecimal_digits (n : Nat) : ∀ c ∈ toDecimal n, isDigitChar c = true := by
  induction n using Nat.strong_induction_on with
  | _ n ih =>
    intro c hc
    rw [toDecimal] at hc
    split at hc
    · simp only [List.mem_singleton] at hc
      subst hc
      exact digitChar_isDigit n
    · simp only [List.mem_append, List.mem_singleton] at hc
      rcases hc with hc | rfl
      · exact ih (n / 10) (Nat.div_lt_self (by omega) (by omega)) c hc
      · exact digitChar_isDigit (n % 10)

theorem digitsVal_append_digit (xs : List Char) (c : Char) :
    digitsVal (xs ++ [c]) = digitsVal xs * 10 + digitVal c := by
  simp [digitsVal, List.foldl_append]

theorem digitsVal_toDecimal : ∀ n : Nat, digitsVal (toDecimal n) = (n : Int) := by
  intro n
  induction n using Nat.strong_induction_on with
  | _ n ih =>
    rw [toDecimal]
    split
    · rename_i h
      have hv := digitChar_val n h
      simp [digitsVal, hv]
    · rename_i h
      rw [digitsVal_append_digit,
        ih (n / 10) (Nat.div_lt_self (by omega) (by omega)),
        digitChar_val (n % 10) (Nat.mod_lt _ (by omega))]
      omega

theorem string_mk_data (s : String) : String.mk s.data = s := rfl

theorem goodString_no_quote (s : String) (h : goodString s = true) :
    ∀ c ∈ s.data, c ≠ '"' := by
  intro c hc
  have h2 := List.all_eq_true.mp h c hc
  simp only [Bool.not_eq_true', Bool.or_eq_false_iff, decide_eq_false_iff_not] at h2
  exact h2.1

theorem boundary_after_elem (vs : List Value) (k : List Char) :
    boundary (renderElemsRest vs ++ ']' :: k) = true := by
  cases vs <;> rfl

theorem boundary_after_pair (ps : List (String × Value)) (k : List Char) :
    boundary (renderPairsRest ps ++ '\x7d' :: k) = true := by
  cases ps with
  | nil => rfl
  | cons p ps2 =>
    obtain ⟨k2, v2⟩ := p
    rfl

theorem tokenize_render_elems : ∀ (l : List Value) (k : List Char),
    (∀ v ∈ l, ∀ k2, goodB v = true → boundary k2 = true →
      tokenize (renderValue v ++ k2) = tokensOf v ++ tokenize k2) →
    goodElems l = true → boundary k = true →
    tokenize (renderElems l ++ ']' :: k) =
      tokensElems l ++ Token.RBracket :: tokenize k := by
  intro l
  induction l with
  | nil =>
    intro k _ _ _
    rw [show renderElems ([] : List Value) = [] from rfl, List.nil_append]
    rw [tokenize_cons_tok ']' k .RBracket (by decide) (fun cs => rfl)]
    rfl
  | cons v vs ih =>
    intro k hl hg hb
    rw [show goodElems (v :: vs) = (goodB v && goodElems vs) from rfl] at hg
    rw [Bool.and_eq_true] at hg
    obtain ⟨hgv, hgvs⟩ := hg
    rw [show renderElems (v :: vs) = renderValue v ++ renderElemsRest vs from rfl]
    rw [List.append_assoc]
    rw [hl v (by simp) _ hgv (boundary_after_elem vs k)]
    cases vs with
    | nil =>
      rw [show renderElemsRest ([] : List Value) = [] from rfl, List.nil_append]
      rw [tokenize_cons_tok ']' k .RBracket (by decide) (fun cs => rfl)]
      simp [tokensElems, tokensRest]
    | cons v2 vs2 =>
      rw [show renderElemsRest (v2 :: vs2) =
        ',' :: (renderValue v2 ++ renderElemsRest vs2) from rfl]
      rw [show (',' :: (renderValue v2 ++ renderElemsRest vs2)) ++ ']' :: k =
        ',' :: ((renderValue v2 ++ renderElemsRest vs2) ++ ']' :: k) from rfl]
      rw [tokenize_cons_tok ',' _ .Comma (by decide) (fun cs => rfl)]
      rw [show (renderValue v2 ++ renderElemsRest vs2 : List Char) =
        renderElems (v2 :: vs2) from rfl]
      rw [ih k (fun x hx => hl x (by simp [hx])) hgvs hb]
      simp [tokensElems, tokensRest]

theorem tokenize_render_pairs : ∀ (l : List (String × Value)) (k : List Char),
    (∀ p ∈ l, ∀ k2, goodB p.2 = true → boundary k2 = true →
      tokenize (renderValue p.2 ++ k2) = tokensOf p.2 ++ tokenize k2) →
    goodPairs l = true → boundary k = true →
    tokenize (renderPairs l ++ '\x7d' :: k) =
      tokensPairs l ++ Token.RBraces :: tokenize k := by
  intro l
  induction l with
  | nil =>
    intro k _ _ _
    rw [show renderPairs ([] : List (String × Value)) = [] from rfl, List.nil_append]
    rw [tokenize_cons_tok '\x7d' k .RBraces (by decide) (fun cs => rfl)]
    rfl
  | cons p ps ih =>
    intro k hl hg hb
    obtain ⟨k1, v⟩ := p
    rw [show goodPairs ((k1, v) :: ps) =
      (goodString k1 && goodB v && goodPairs ps) from rfl] at hg
    simp only [Bool.and_eq_true] at hg
    obtain ⟨⟨hk1, hgv⟩, hgps⟩ := hg
    rw [show renderPairs ((k1, v) :: ps) =
      '"' :: (k1.data ++ '"' :: ':' :: (renderValue v ++ renderPairsRest ps)) from rfl]
    rw [show ('"' :: (k1.data ++ '"' :: ':' :: (renderValue v ++ renderPairsRest ps)))
        ++ '\x7d' :: k =
      '"' :: (k1.data ++ '"' ::
        (':' :: ((renderValue v ++ renderPairsRest ps) ++ '\x7d' :: k))) by simp]
    rw [tokenize_string_at k1.data _ (goodString_no_quote k1 hk1)]
    rw [tokenize_cons_tok ':' _ .Colon (by decide) (fun cs => rfl)]
    rw [List.append_assoc]
    rw [hl (k1, v) (by simp) _ hgv (boundary_after_pair ps k)]
    rw [string_mk_data k1]
    cases ps with
    | nil =>
      rw [show renderPairsRest ([] : List (String × Value)) = [] from rfl,
        List.nil_append]
      rw [tokenize_cons_tok '\x7d' k .RBraces (by decide) (fun cs => rfl)]
      simp [tokensPairs, tokensPairsRest]
    | cons p2 ps2 =>
      obtain ⟨k2, v2⟩ := p2
      rw [show renderPairsRest ((k2, v2) :: ps2) =
        ',' :: '"' :: (k2.data ++ '"' :: ':' :: (renderValue v2 ++ renderPairsRest ps2))
        from rfl]
      rw [show (',' :: '"' ::
          (k2.data ++ '"' :: ':' :: (renderValue v2 ++ renderPairsRest ps2)))
          ++ '\x7d' :: k =
        ',' :: (renderPairs ((k2, v2) :: ps2) ++ '\x7d' :: k) by simp [renderPairs]]
      rw [tokenize_cons_tok ',' _ .Comma (by decide) (fun cs => rfl)]
      rw [ih k (fun x hx => hl x (by simp [hx])) hgps hb]
      simp [tokensPairs, tokensPairsRest]

/-- Lexer correctness on rendered text: tokenizing a rendered good value,
followed by any boundary continuation, yields the value's token sequence
followed by the continuation's tokens. -/
theorem tokenize_render : ∀ (v : Value) (k : List Char), goodB v = true →
    boundary k = true → tokenize (renderValue v ++ k) = tokensOf v ++ tokenize k := by
  intro v
  induction v using Value.induct with
  | hNum n =>
    intro k hg hb
    rw [show goodB (.Number n) = (decide (0 ≤ n) && decide (n < 2147483648))
      from rfl] at hg
    simp only [Bool.and_eq_true, decide_eq_true_eq] at hg
    obtain ⟨h0, h1⟩ := hg
    rw [show renderValue (.Number n) =
      if n < 0 then '-' :: toDecimal n.natAbs else toDecimal n.toNat from rfl]
    rw [if_neg (by omega)]
    have hval : digitsVal (toDecimal n.toNat) < 2147483648 := by
      rw [digitsVal_toDecimal]
      omega
    rw [tokenize_digits_at _ k (toDecimal_ne_nil _) (toDecimal_digits _) hval
      (boundary_nondigit k hb)]
    rw [digitsVal_toDecimal, Int.toNat_of_nonneg h0]
    rfl
  | hStr s =>
    intro k hg hb
    rw [show renderValue (.String s) ++ k = '"' :: (s.data ++ '"' :: k) by
      simp [renderValue]]
    rw [tokenize_string_at s.data k (goodString_no_quote s hg)]
    rw [string_mk_data s]
    rfl
  | hBool b =>
    intro k _ hb
    cases b
    · rw [show renderValue (.Boolean false) ++ k = 'f' :: (['a', 'l', 's', 'e'] ++ k)
        from rfl]
      rw [tokenize_keyword_at 'f' ['a', 'l', 's', 'e'] k (Or.inr (Or.inl rfl))
        (by decide) (boundary_nonalpha k hb)]
      rfl
    · rw [show renderValue (.Boolean true) ++ k = 't' :: (['r', 'u', 'e'] ++ k)
        from rfl]
      rw [tokenize_keyword_at 't' ['r', 'u', 'e'] k (Or.inl rfl)
        (by decide) (boundary_nonalpha k hb)]
      rfl
  | hNull =>
    intro k _ hb
    rw [show renderValue .Null ++ k = 'n' :: (['u', 'l', 'l'] ++ k) from rfl]
    rw [tokenize_keyword_at 'n' ['u', 'l', 'l'] k (Or.inr (Or.inr rfl))
      (by decide) (boundary_nonalpha k hb)]
    rfl
  | hArr l hl =>
    intro k hg hb
    rw [show renderValue (.Array l) ++ k = '[' :: (renderElems l ++ ']' :: k) by
      simp [renderValue]]
    rw [tokenize_cons_tok '[' _ .LBracket (by decide) (fun cs => rfl)]
    rw [tokenize_render_elems l k hl (by rwa [show goodB (.Array l) = goodElems l
      from rfl] at hg) hb]
    simp [tokensOf]
  | hObj l hl =>
    intro k hg hb
    rw [show renderValue (.Object l) ++ k = '\x7b' :: (renderPairs l ++ '\x7d' :: k) by
      simp [renderValue]]
    rw [tokenize_cons_tok '\x7b' _ .LBraces (by decide) (fun cs => rfl)]
    rw [tokenize_render_pairs l k hl (by rwa [show goodB (.Object l) = goodPairs l
      from rfl] at hg) hb]
    simp [tokensOf]

/-- C1 (amended): the round trip holds on the trees the textual grammar can
express: for every Value tree whose strings and object keys contain no
double quote and no backslash escape character, and whose Number values are
non-negative and i32-representable, rendering to the grammar's textual form
and then tokenizing and parsing returns Ok of exactly the original tree.
(The claim as frozen omits the number conditions; the counterexample shows
a tree holding a negative number fails the round trip.) -/
theorem roundtrip_good (v : Value) (hg : goodB v = true) :
    parse (tokenize (renderValue v)) = .ok v := by
  have h := tokenize_render v [] hg rfl
  rw [List.append_nil, show tokenize ([] : List Char) = [] from rfl,
    List.append_nil] at h
  have h2 : parseVal (tokensOf v) = .ok (v, []) := by
    have h3 := parseVal_tokensOf v []
    rwa [List.append_nil] at h3
  unfold parse
  rw [h, h2]

theorem roundtrip_good_witness :
    parse (tokenize (renderValue (Value.Object [("a", Value.Number 1),
        ("b", Value.Array [Value.Null, Value.Boolean true])]))) =
      .ok (Value.Object [("a", Value.Number 1),
        ("b", Value.Array [Value.Null, Value.Boolean true])]) :=
  roundtrip_good _ rfl

/-- C1 (counterexample): the tree holding the number -1 — buildable, since
the Rust value type stores any i32 — renders to a minus sign and a digit,
which the parser rejects, so the round trip does not return the original
tree; the claim as frozen, which puts no condition on Number values, fails
here. -/
theorem roundtrip_counterexample :
    parse (tokenize (renderValue (Value.Number (-1)))) ≠ .ok (Value.Number (-1)) := by
  intro h
  have h1 : renderValue (Value.Number (-1)) = ['-', '1'] := by
    rw [show renderValue (Value.Number (-1)) =
      '-' :: toDecimal (Int.natAbs (-1)) from rfl]
    rw [show Int.natAbs (-1) = 1 from rfl]
    rw [toDecimal, dif_pos (by omega)]
    rfl
  rw [h1] at h
  rw [show parse (tokenize ['-', '1']) = .error "Unexpected token: Minus" from rfl] at h
  exact Except.noConfusion h
